import Mathlib

/-!
Verification of core subsystems of a teaching kernel (rCore-style) against its
natural-language specification.  Each section shallowly embeds one part of the
Rust source:

* FrameAlloc  — os/src/mm/frame_allocator.rs (stack frame allocator, tracker zeroing)
* HardLink    — os/src/fs/inode.rs (process-wide hard-link map, unlink)
* KFstat      — os/src/syscall/fs.rs (sys_fstat)
* BCache      — easy-fs/src/block_cache.rs (block-cache manager)
* Pipe        — os/src/fs/pipe.rs (ring buffer, Pipe::read / Pipe::write loops)
* EasyFS      — easy-fs/src/layout.rs and vfs.rs (DiskInode sizes, clear_size, create)
* PT          — os/src/mm/page_table.rs (three-level walker, map/translate,
                translated_byte_buffer) and os/src/syscall/process.rs (waitpid)

Machine integers are modelled as Nat with explicit truncation where the source
truncates; Rust panics and failed asserts are modelled as Option/Except errors.
-/

namespace FrameAlloc

/-- State of the stack frame allocator (os/src/mm/frame_allocator.rs,
StackFrameAllocator) together with physical byte memory.  The source keeps
recycled frame numbers in a Vec used as a stack; here the list head is the top
of that stack.  frameEnd is the field named end in the source. -/
structure AllocState where
  current : Nat
  frameEnd : Nat
  recycled : List Nat
  mem : Nat → Nat → Nat

/-- StackFrameAllocator::alloc: pop a recycled frame if any, else hand out the
watermark and advance it; none when the range is exhausted. -/
def stackAlloc (s : AllocState) : Option (Nat × AllocState) :=
  match s.recycled with
  | ppn :: rest => some (ppn, { s with recycled := rest })
  | [] =>
      if s.current = s.frameEnd then none
      else some (s.current, { s with current := s.current + 1 })

/-- StackFrameAllocator::dealloc: the validity check (frame below the
watermark and not already recycled) panics on failure, modelled as none. -/
def stackDealloc (s : AllocState) (ppn : Nat) : Option AllocState :=
  if s.current ≤ ppn ∨ ppn ∈ s.recycled then none
  else some { s with recycled := ppn :: s.recycled }

/-- FrameTracker::new: zero all 4096 bytes of the frame. -/
def trackerNew (s : AllocState) (ppn : Nat) : AllocState :=
  { s with mem := fun p i => if p = ppn then 0 else s.mem p i }

/-- frame_alloc: allocate from the global allocator and wrap in a tracker
(which zeroes the frame). -/
def frame_alloc (s : AllocState) : Option (Nat × AllocState) :=
  (stackAlloc s).map (fun pr => (pr.1, trackerNew pr.2 pr.1))

/-- Claim C8: every successful frame_alloc returns a frame tracker whose
4096-byte frame content is entirely zero at the moment of allocation,
including when the returned frame number was previously allocated and then
deallocated. -/
theorem frame_alloc_zeroed (s s2 : AllocState) (ppn : Nat)
    (h : frame_alloc s = some (ppn, s2)) : ∀ i, i < 4096 → s2.mem ppn i = 0 := by
  intro i _
  unfold frame_alloc stackAlloc at h
  rcases s with ⟨cur, fend, rec, mem⟩
  cases rec with
  | cons p rest =>
      simp only [Option.map] at h
      cases h
      simp [trackerNew]
  | nil =>
      by_cases hc : cur = fend
      · simp [hc] at h
      · simp only [hc, if_false, Option.map] at h
        cases h
        simp [trackerNew]

/-- A dirty 7-filled memory, a frame that is deallocated and then allocated
again: the returned frame is zeroed even though it held 7 before. -/
def s1c : AllocState := ⟨5, 10, [], fun _ _ => 7⟩

def s0c : AllocState := (stackDealloc s1c 3).getD s1c

def s0cAfter : AllocState := ((frame_alloc s0c).getD (0, s0c)).2

theorem frame_alloc_zeroed_witness :
    s0c.mem 3 0 = 7 ∧ s0cAfter.mem 3 0 = 0 :=
  ⟨rfl, frame_alloc_zeroed s0c s0cAfter 3 rfl 0 (by decide)⟩

end FrameAlloc

namespace HardLink

/-- The process-wide hard-link map (os/src/fs/inode.rs, HARD_LINK_MAP):
paths mapped to shared OSInode objects.  Sharing of one OSInode (hence of one
LinkNumber cell) by several paths is modelled by an indirection: entries map a
path to a reference r, and nlink gives the shared count stored behind r. -/
structure LinkState where
  entries : List (String × Nat)
  nlink : Nat → Nat

/-- unlink (os/src/fs/inode.rs lines 42-64): look the path up; if present and
the shared count exceeds 1, decrement it and, exactly when the decremented
count is 1, remove the map entry; a present path whose count is already 1
yields -1 with nothing changed, as does an absent path. -/
def unlink (st : LinkState) (path : String) : Int × LinkState :=
  match st.entries.lookup path with
  | none => (-1, st)
  | some r =>
      let c := st.nlink r
      if 1 < c then
        let st1 : LinkState :=
          { entries := st.entries, nlink := fun x => if x = r then c - 1 else st.nlink x }
        if c - 1 = 1 then
          (0, { st1 with entries := st1.entries.eraseP (fun e => e.1 == path) })
        else (0, st1)
      else (-1, st)

/-- A key outside the key list never looks up. -/
theorem lookup_none_of_not_mem_keys (l : List (String × Nat)) (path : String)
    (h : path ∉ l.map Prod.fst) : l.lookup path = none := by
  induction l with
  | nil => rfl
  | cons hd tl ih =>
      obtain ⟨k, v⟩ := hd
      simp only [List.map_cons, List.mem_cons, not_or] at h
      rw [List.lookup_cons]
      have hk : (path == k) = false := by
        simp only [beq_eq_false_iff_ne, ne_eq]
        exact h.1
      rw [hk]
      exact ih h.2

/-- Erasing the (unique, by key-nodup) entry of a key makes lookup of that key
fail afterwards. -/
theorem lookup_eraseP_self (l : List (String × Nat)) (path : String)
    (hnd : (l.map Prod.fst).Nodup) :
    (l.eraseP (fun e => e.1 == path)).lookup path = none := by
  induction l with
  | nil => rfl
  | cons hd tl ih =>
      obtain ⟨k, v⟩ := hd
      simp only [List.map_cons, List.nodup_cons] at hnd
      rw [List.eraseP_cons]
      by_cases hh : k = path
      · simp only [hh, beq_self_eq_true, cond_true]
        exact lookup_none_of_not_mem_keys tl path (hh ▸ hnd.1)
      · have hk : ((k, v).1 == path) = false := by
          simp only [beq_eq_false_iff_ne, ne_eq]
          exact hh
        rw [hk]
        simp only [cond_false]
        rw [List.lookup_cons]
        have hpk : (path == k) = false := by
          simp only [beq_eq_false_iff_ne, ne_eq]
          exact fun hc => hh hc.symm
        rw [hpk]
        exact ih hnd.2

/-- The counterexample state: one path, shared count already 1. -/
def stC3 : LinkState := ⟨[("a", 0)], fun _ => 1⟩

/-- Claim C3, counterexample: with path a present in the map and its shared
link count equal to 1 (the last remaining link), unlink a returns -1 and
leaves both the count and the map entry untouched, contradicting the claim
that unlink decrements the count and removes the last link's entry. -/
theorem unlink_last_link_counterexample :
    stC3.entries.lookup "a" = some 0 ∧ stC3.nlink 0 = 1 ∧
    unlink stC3 "a" = (-1, stC3) :=
  ⟨rfl, rfl, rfl⟩

/-- Claim C3 (amended): unlink of an absent path returns -1 with the state
unchanged.  For a present path with shared count c: if c exceeds 1, unlink
returns 0, decrements the shared count, and removes the path's map entry
exactly when the decremented count is 1 (so a subsequent lookup of the path
fails, keys being distinct); if c is already 1 — the path is the last
remaining link — unlink refuses with -1 and changes nothing, so the entry is
never removed and the inode's blocks are not freed. -/
theorem unlink_spec (st : LinkState) (path : String) :
    (st.entries.lookup path = none → unlink st path = (-1, st)) ∧
    (∀ r, st.entries.lookup path = some r →
      (1 < st.nlink r →
        (unlink st path).1 = 0 ∧
        (unlink st path).2.nlink r = st.nlink r - 1 ∧
        ((unlink st path).2.entries =
          if st.nlink r - 1 = 1 then st.entries.eraseP (fun e => e.1 == path)
          else st.entries) ∧
        (st.nlink r - 1 = 1 → (st.entries.map Prod.fst).Nodup →
          (unlink st path).2.entries.lookup path = none)) ∧
      (st.nlink r ≤ 1 → unlink st path = (-1, st))) := by
  constructor
  · intro h
    simp only [unlink, h]
  · intro r h
    constructor
    · intro hc
      simp only [unlink, h]
      rw [if_pos hc]
      by_cases h1 : st.nlink r - 1 = 1
      · rw [if_pos h1, if_pos h1]
        refine ⟨rfl, by simp, rfl, ?_⟩
        intro _ hnd
        exact lookup_eraseP_self st.entries path hnd
      · rw [if_neg h1, if_neg h1]
        refine ⟨rfl, by simp, rfl, ?_⟩
        intro hx
        exact absurd hx h1
    · intro hc
      simp only [unlink, h]
      rw [if_neg (by omega)]

def stC3b : LinkState := ⟨[("a", 0), ("b", 0)], fun _ => 2⟩

theorem unlink_spec_witness :
    stC3b.entries.lookup "a" = some 0 ∧ 1 < stC3b.nlink 0 ∧
    (unlink stC3b "a").1 = 0 ∧ (unlink stC3b "a").2.nlink 0 = 1 ∧
    (unlink stC3b "a").2.entries.lookup "a" = none :=
  have h : stC3b.entries.lookup "a" = some 0 := rfl
  have hs := (unlink_spec stC3b "a").2 0 h
  have hc : (1 : Nat) < stC3b.nlink 0 := by decide
  have h3 := hs.1 hc
  ⟨h, hc, h3.1, h3.2.1, h3.2.2.2 (by decide) (by decide)⟩

end HardLink

namespace KFstat

/-- DiskInodeType from easy-fs/src/layout.rs. -/
inductive DiskInodeType where
  | file
  | directory
deriving DecidableEq

/-- The fields of an open regular-file object (OSInode together with the
easy-fs inode it wraps) that sys_fstat consults: the File-trait accessors
inode_id and nlink, plus the on-disk type tag of the wrapped inode. -/
structure FileLike where
  readable : Bool
  writable : Bool
  nlinkCount : Nat
  inodeIdNum : Nat
  itype : DiskInodeType
deriving DecidableEq

/-- Stat from os/src/syscall/fs.rs (pad omitted; it is never written). -/
structure Stat where
  dev : Nat
  ino : Nat
  mode : Nat
  nlink : Nat
deriving DecidableEq

/-- StatMode::FILE. -/
def FILE : Nat := 0o100000

/-- StatMode::DIR. -/
def DIR : Nat := 0o040000

/-- sys_fstat (os/src/syscall/fs.rs lines 290-315): reject a non-writable
Stat pointer, an out-of-range fd, and a free fd slot with -1; otherwise write
ino from the file's inode id, mode unconditionally as StatMode::FILE, and
nlink from the file's shared link count, returning 0.  The destination
pointer's writability check is passed in as the already-evaluated boolean
stWritable. -/
def sys_fstat (fdTable : List (Option FileLike)) (fd : Nat) (stWritable : Bool)
    (st : Stat) : Int × Stat :=
  if !stWritable then (-1, st)
  else if fdTable.length ≤ fd then (-1, st)
  else
    match fdTable.getD fd none with
    | none => (-1, st)
    | some f => (0, { dev := st.dev, ino := f.inodeIdNum, mode := FILE, nlink := f.nlinkCount })

def dirFile : FileLike := ⟨true, false, 2, 0, .directory⟩

/-- Claim C4, counterexample: a valid descriptor whose open object names a
directory still gets mode = FILE (0o100000), not DIR (0o040000): sys_fstat
never writes DIR. -/
theorem sys_fstat_dir_counterexample :
    dirFile.itype = .directory ∧
    (sys_fstat [some dirFile] 0 true ⟨0, 0, 0, 1⟩).1 = 0 ∧
    (sys_fstat [some dirFile] 0 true ⟨0, 0, 0, 1⟩).2.mode = FILE ∧
    FILE ≠ DIR := by
  refine ⟨rfl, rfl, rfl, ?_⟩
  decide

/-- Claim C4 (amended): for every process holding a valid open descriptor fd
and a writable Stat pointer, sys_fstat returns 0 and fills ino with the
file's inode number and nlink with its shared link count, and writes mode =
FILE (0o100000) unconditionally — also when the descriptor names a directory;
the DIR mode (0o040000) is never produced. -/
theorem sys_fstat_spec (fdTable : List (Option FileLike)) (fd : Nat)
    (f : FileLike) (st : Stat)
    (h1 : fd < fdTable.length) (h2 : fdTable.getD fd none = some f) :
    sys_fstat fdTable fd true st =
      (0, { dev := st.dev, ino := f.inodeIdNum, mode := FILE, nlink := f.nlinkCount }) := by
  unfold sys_fstat
  rw [if_neg (by simp), if_neg (by omega), h2]

theorem sys_fstat_spec_witness :
    sys_fstat [some dirFile, none] 0 true ⟨0, 0, 0, 1⟩ =
      (0, { dev := 0, ino := dirFile.inodeIdNum, mode := FILE, nlink := dirFile.nlinkCount }) :=
  sys_fstat_spec [some dirFile, none] 0 dirFile ⟨0, 0, 0, 1⟩ (by decide) rfl

end KFstat

namespace BCache

/-- A cached block (easy-fs/src/block_cache.rs): its disk block id and a
token standing for the identity of the shared Arc allocation that holds the
BlockCache buffer. -/
structure Entry where
  blockId : Nat
  token : Nat
deriving DecidableEq

/-- BlockCacheManager: the queue of cached blocks plus a fresh-token source. -/
structure CMState where
  queue : List Entry
  nextToken : Nat
deriving DecidableEq

def BLOCK_CACHE_SIZE : Nat := 16

/-- BlockCacheManager::get_block_cache: return the queued entry with the
requested id if present; otherwise, at capacity, drop the first entry whose
outstanding strong count is 1 (evictable names those entries by token) or die
(none models the Run-out-of-BlockCache panic), then load the block and push a
fresh entry at the tail. -/
def getBlockCache (s : CMState) (blockId : Nat) (evictable : Nat → Bool) :
    Option (Nat × CMState) :=
  match s.queue.find? (fun e => e.blockId == blockId) with
  | some e => some (e.token, s)
  | none =>
      if s.queue.length = BLOCK_CACHE_SIZE then
        if (s.queue.find? (fun e => evictable e.token)).isSome then
          some (s.nextToken,
            CMState.mk
              (s.queue.eraseP (fun e => evictable e.token) ++ [Entry.mk blockId s.nextToken])
              (s.nextToken + 1))
        else none
      else
        some (s.nextToken,
          CMState.mk (s.queue ++ [Entry.mk blockId s.nextToken]) (s.nextToken + 1))

/-- States of the block-cache manager reachable from the empty manager by
get_block_cache requests, with arbitrary strong-count configurations at each
step. -/
inductive Reachable : CMState → Prop where
  | empty : Reachable ⟨[], 0⟩
  | step (s : CMState) (blockId : Nat) (evictable : Nat → Bool) (t : Nat)
      (s2 : CMState) : Reachable s →
      getBlockCache s blockId evictable = some (t, s2) → Reachable s2

theorem nodup_push (q : List Entry) (blockId tok : Nat)
    (hq : (q.map Entry.blockId).Nodup) (hb : blockId ∉ q.map Entry.blockId) :
    (((q ++ [Entry.mk blockId tok]).map Entry.blockId)).Nodup := by
  rw [List.map_append]
  rw [List.nodup_append]
  refine ⟨hq, by simp, ?_⟩
  intro x hx
  simp only [List.map_cons, List.map_nil, List.mem_singleton]
  intro hxe
  subst hxe
  exact hb hx

/-- One get_block_cache step keeps the block ids in the queue distinct. -/
theorem nodup_step (s : CMState) (blockId : Nat) (evictable : Nat → Bool)
    (t : Nat) (s2 : CMState)
    (hnd : (s.queue.map Entry.blockId).Nodup)
    (h : getBlockCache s blockId evictable = some (t, s2)) :
    (s2.queue.map Entry.blockId).Nodup := by
  unfold getBlockCache at h
  cases hf : s.queue.find? (fun e => e.blockId == blockId) with
  | some e =>
      rw [hf] at h
      cases h
      exact hnd
  | none =>
      rw [hf] at h
      have hb : blockId ∉ s.queue.map Entry.blockId := by
        intro hmem
        obtain ⟨e, he, heq⟩ := List.mem_map.mp hmem
        have hne := List.find?_eq_none.mp hf e he
        simp [heq] at hne
      by_cases hl : s.queue.length = BLOCK_CACHE_SIZE
      · rw [if_pos hl] at h
        by_cases hev : (s.queue.find? (fun e => evictable e.token)).isSome
        · rw [if_pos hev] at h
          cases h
          apply nodup_push
          · exact ((List.eraseP_sublist s.queue).map Entry.blockId).nodup hnd
          · intro hmem
            exact hb (((List.eraseP_sublist s.queue).map Entry.blockId).mem hmem)
        · rw [if_neg hev] at h
          exact absurd h (by simp)
      · rw [if_neg hl] at h
        cases h
        exact nodup_push s.queue blockId s.nextToken hnd hb

/-- With distinct ids, a request for the id of a queued entry returns that
very entry's handle and leaves the queue untouched. -/
theorem getBlockCache_hit (s : CMState)
    (hnd : (s.queue.map Entry.blockId).Nodup)
    (e : Entry) (he : e ∈ s.queue) (evictable : Nat → Bool) :
    getBlockCache s e.blockId evictable = some (e.token, s) := by
  have hfind : s.queue.find? (fun x => x.blockId == e.blockId) = some e := by
    cases hf : s.queue.find? (fun x => x.blockId == e.blockId) with
    | none =>
        have hne := List.find?_eq_none.mp hf e he
        simp at hne
    | some e2 =>
        have hmem := List.mem_of_find?_eq_some hf
        have hpe := List.find?_some hf
        simp only [beq_iff_eq] at hpe
        have := List.inj_on_of_nodup_map hnd hmem he hpe
        rw [this]
  unfold getBlockCache
  rw [hfind]

/-- Claim C9: in every reachable state of the block-cache manager the queue
holds at most one entry per disk block id; consequently, while a block stays
cached, every get_block_cache call for its id hands back the same shared
entry (same token) and does not change the queue. -/
theorem block_cache_unique (s : CMState) (h : Reachable s) :
    (s.queue.map Entry.blockId).Nodup ∧
    ∀ e ∈ s.queue, ∀ evictable,
      getBlockCache s e.blockId evictable = some (e.token, s) := by
  have hnd : (s.queue.map Entry.blockId).Nodup := by
    induction h with
    | empty => simp
    | step s0 blockId evictable t s2 hr hgb ih =>
        exact nodup_step s0 blockId evictable t s2 ih hgb
  exact ⟨hnd, fun e he evictable => getBlockCache_hit s hnd e he evictable⟩

def sC9 : CMState := ⟨[⟨5, 0⟩, ⟨9, 1⟩], 2⟩

theorem block_cache_unique_witness :
    (sC9.queue.map Entry.blockId).Nodup ∧
    getBlockCache sC9 9 (fun _ => false) = some (1, sC9) :=
  have h0 : Reachable (⟨[⟨5, 0⟩], 1⟩ : CMState) :=
    Reachable.step ⟨[], 0⟩ 5 (fun _ => false) 0 ⟨[⟨5, 0⟩], 1⟩ Reachable.empty (by decide)
  have h1 : Reachable sC9 :=
    Reachable.step ⟨[⟨5, 0⟩], 1⟩ 9 (fun _ => false) 1 sC9 h0 (by decide)
  have hres := block_cache_unique sC9 h1
  ⟨hres.1, hres.2 ⟨9, 1⟩ (by decide) (fun _ => false)⟩

end BCache

namespace Pipe

def RING_BUFFER_SIZE : Nat := 32

/-- RingBufferStatus from os/src/fs/pipe.rs. -/
inductive RingBufferStatus where
  | full
  | empty
  | normal
deriving DecidableEq

/-- PipeRingBuffer: the 32-byte array is modelled as a function from index to
byte value. -/
structure RB where
  arr : Nat → Nat
  head : Nat
  tail : Nat
  status : RingBufferStatus

/-- PipeRingBuffer::new. -/
def newRB : RB := ⟨fun _ => 0, 0, 0, .empty⟩

/-- PipeRingBuffer::write_byte. -/
def write_byte (rb : RB) (b : Nat) : RB :=
  { arr := fun i => if i = rb.tail then b else rb.arr i
    head := rb.head
    tail := (rb.tail + 1) % RING_BUFFER_SIZE
    status := if (rb.tail + 1) % RING_BUFFER_SIZE = rb.head then .full else .normal }

/-- PipeRingBuffer::read_byte. -/
def read_byte (rb : RB) : Nat × RB :=
  (rb.arr rb.head,
   { arr := rb.arr
     head := (rb.head + 1) % RING_BUFFER_SIZE
     tail := rb.tail
     status := if (rb.head + 1) % RING_BUFFER_SIZE = rb.tail then .empty else .normal })

/-- PipeRingBuffer::available_read. -/
def available_read (rb : RB) : Nat :=
  if rb.status = .empty then 0
  else if rb.head < rb.tail then rb.tail - rb.head
  else rb.tail + RING_BUFFER_SIZE - rb.head

/-- PipeRingBuffer::available_write. -/
def available_write (rb : RB) : Nat :=
  if rb.status = .full then 0 else RING_BUFFER_SIZE - available_read rb

/-- The inner for-loop of Pipe::write: push the bytes one by one. -/
def writeChunk (rb : RB) (bs : List Nat) : RB := bs.foldl write_byte rb

/-- The inner for-loop of Pipe::read: pop n bytes one by one. -/
def readChunk : RB → Nat → RB × List Nat
  | rb, 0 => (rb, [])
  | rb, n + 1 =>
      let p := read_byte rb
      let q := readChunk p.2 n
      (q.1, p.1 :: q.2)

/-- The outer loop of Pipe::write, run in a scenario where no other process
ever drains the buffer: a full ring makes the writer suspend forever (none).
One round writes min(available_write, remaining) bytes; the call returns only
when a round finds the user buffer exhausted before the ring fills. -/
def pipeWriteLoop (rb : RB) (bytes : List Nat) (acc : Nat) : Option (RB × Nat) :=
  if h : available_write rb = 0 then none
  else if h2 : bytes.length < available_write rb then
    some (writeChunk rb bytes, acc + bytes.length)
  else
    pipeWriteLoop (writeChunk rb (bytes.take (available_write rb)))
      (bytes.drop (available_write rb)) (acc + available_write rb)
termination_by bytes.length
decreasing_by
  simp only [List.length_drop]
  omega

/-- The outer loop of Pipe::read, run in a scenario where no other process
ever refills the buffer: closed says whether all write ends have been
dropped; an empty ring with a live write end makes the reader suspend forever
(none).  One round reads min(available_read, remaining slots) bytes; the call
returns early only when a round finds the user buffer exhausted while pipe
bytes remain, or, on an empty ring, when all write ends are closed. -/
def pipeReadLoop (rb : RB) (slots : Nat) (acc : List Nat) (closed : Bool) :
    Option (RB × List Nat) :=
  if h : available_read rb = 0 then
    if closed then some (rb, acc) else none
  else if h2 : slots < available_read rb then
    some ((readChunk rb slots).1, acc ++ (readChunk rb slots).2)
  else
    pipeReadLoop (readChunk rb (available_read rb)).1 (slots - available_read rb)
      (acc ++ (readChunk rb (available_read rb)).2) closed
termination_by slots
decreasing_by
  omega

def bytes32 : List Nat := List.replicate 32 7

/-- Claim C6, counterexample: writing exactly 32 bytes (the full ring) into a
freshly created pipe never returns — after the round that fills the ring the
writer finds available_write = 0 and suspends forever, so no subsequent read
can be performed by the same process; the claimed round trip fails at n = 32. -/
theorem pipe_write_32_counterexample :
    bytes32.length = 32 ∧ pipeWriteLoop newRB bytes32 0 = none := by
  refine ⟨rfl, ?_⟩
  unfold pipeWriteLoop
  rw [dif_neg (by decide)]
  rw [dif_neg (by decide)]
  unfold pipeWriteLoop
  rw [dif_pos (by decide)]

/-- Writing a chunk into a ring whose head is 0 and that has room with no
wrap-around: head is unchanged, tail advances by the chunk length, the bytes
land at indices tail, tail+1, ..., and the status becomes normal (unless
nothing was written). -/
theorem writeChunk_spec (bs : List Nat) (rb : RB) (hh : rb.head = 0)
    (ht : rb.tail + bs.length ≤ 31) :
    (writeChunk rb bs).head = 0 ∧
    (writeChunk rb bs).tail = rb.tail + bs.length ∧
    (∀ j, (writeChunk rb bs).arr j =
        if rb.tail ≤ j ∧ j < rb.tail + bs.length then bs.getD (j - rb.tail) 0
        else rb.arr j) ∧
    (writeChunk rb bs).status = if bs.length = 0 then rb.status else .normal := by
  induction bs generalizing rb with
  | nil =>
      refine ⟨hh, by simp [writeChunk], ?_, by simp [writeChunk]⟩
      intro j
      rw [if_neg (by simp only [List.length_nil]; omega)]
      simp [writeChunk]
  | cons b bs ih =>
      have hlen : (b :: bs).length = bs.length + 1 := rfl
      have hwc : writeChunk rb (b :: bs) = writeChunk (write_byte rb b) bs := rfl
      have htail1 : (write_byte rb b).tail = rb.tail + 1 := by
        simp only [write_byte, RING_BUFFER_SIZE]
        rw [Nat.mod_eq_of_lt (by omega)]
      have hhead1 : (write_byte rb b).head = 0 := hh
      have iha := ih (write_byte rb b) hhead1 (by rw [htail1]; omega)
      rw [hwc]
      refine ⟨iha.1, ?_, ?_, ?_⟩
      · rw [iha.2.1, htail1, hlen]
        omega
      · intro j
        have harr := iha.2.2.1 j
        rw [harr, htail1]
        by_cases hj1 : j = rb.tail
        · rw [if_neg (by omega), if_pos (by omega)]
          simp only [write_byte, hj1, if_pos rfl]
          simp
        · by_cases hj2 : rb.tail + 1 ≤ j ∧ j < rb.tail + 1 + bs.length
          · rw [if_pos hj2, if_pos (by omega)]
            have hd : j - rb.tail = (j - (rb.tail + 1)) + 1 := by omega
            rw [hd]
            simp only [List.getD_cons_succ]
          · rw [if_neg hj2, if_neg (by omega)]
            simp only [write_byte]
            rw [if_neg hj1]
      · rw [iha.2.2.2]
        by_cases hb0 : bs.length = 0
        · rw [if_pos hb0, if_neg (by omega)]
          have hc : (rb.tail + 1) % 32 ≠ rb.head := by
            rw [Nat.mod_eq_of_lt (show rb.tail + 1 < 32 by omega)]
            omega
          simp only [write_byte, RING_BUFFER_SIZE]
          rw [if_neg hc]
        · rw [if_neg hb0, if_neg (by omega)]

/-- Reading n bytes with no wrap-around: head advances by n, the array and
tail are unchanged, the emitted bytes are the array cells at head, head+1,
..., and the status becomes empty exactly when the new head meets the tail. -/
theorem readChunk_spec (n : Nat) (rb : RB) (hn : rb.head + n ≤ 31) :
    (readChunk rb n).1.arr = rb.arr ∧
    (readChunk rb n).1.head = rb.head + n ∧
    (readChunk rb n).1.tail = rb.tail ∧
    (readChunk rb n).1.status =
      (if n = 0 then rb.status
       else if rb.head + n = rb.tail then .empty else .normal) ∧
    (readChunk rb n).2 = (List.range n).map (fun k => rb.arr (rb.head + k)) := by
  induction n generalizing rb with
  | zero => exact ⟨rfl, by simp [readChunk], rfl, by simp [readChunk], by simp [readChunk]⟩
  | succ n ih =>
      have hrc : readChunk rb (n + 1) =
          (((readChunk (read_byte rb).2 n).1,
            (read_byte rb).1 :: (readChunk (read_byte rb).2 n).2)) := rfl
      have hhead1 : (read_byte rb).2.head = rb.head + 1 := by
        simp only [read_byte, RING_BUFFER_SIZE]
        rw [Nat.mod_eq_of_lt (by omega)]
      have iha := ih (read_byte rb).2 (by rw [hhead1]; omega)
      rw [hrc]
      have harr1 : (read_byte rb).2.arr = rb.arr := rfl
      have htail1 : (read_byte rb).2.tail = rb.tail := rfl
      refine ⟨by rw [iha.1, harr1], ?_, by rw [iha.2.2.1, htail1], ?_, ?_⟩
      · rw [iha.2.1, hhead1]
        omega
      · show (readChunk (read_byte rb).2 n).1.status = _
        rw [iha.2.2.2.1]
        by_cases hn0 : n = 0
        · subst hn0
          rw [if_pos rfl, if_neg (show ¬(0 + 1 = 0) by decide)]
          show (if (rb.head + 1) % RING_BUFFER_SIZE = rb.tail then RingBufferStatus.empty
                else RingBufferStatus.normal) = _
          have hmod : (rb.head + 1) % RING_BUFFER_SIZE = rb.head + 1 := by
            show (rb.head + 1) % 32 = rb.head + 1
            exact Nat.mod_eq_of_lt (by omega)
          exact if_congr (by rw [hmod]) rfl rfl
        · rw [if_neg hn0, if_neg (Nat.succ_ne_zero n)]
          exact if_congr (by rw [hhead1, htail1]; omega) rfl rfl
      · show (read_byte rb).1 :: (readChunk (read_byte rb).2 n).2 = _
        rw [iha.2.2.2.2]
        simp only [harr1, hhead1]
        have hmap : List.map (fun k => rb.arr (rb.head + 1 + k)) (List.range n) =
            List.map ((fun k => rb.arr (rb.head + k)) ∘ Nat.succ) (List.range n) := by
          apply List.map_congr_left
          intro k _
          show rb.arr (rb.head + 1 + k) = rb.arr (rb.head + (k + 1))
          congr 1
          omega
        rw [List.range_succ_eq_map, List.map_cons, List.map_map, ← hmap]
        simp [read_byte]

/-- Every list is recovered by reading its positions back with getD. -/
theorem map_getD_range (l : List Nat) :
    (List.range l.length).map (fun k => l.getD k 0) = l := by
  apply List.ext_getElem
  · simp
  · intro i h1 h2
    simp only [List.getElem_map, List.getElem_range]
    rw [List.getD_eq_getElem l 0 h2]

/-- Claim C6 (amended): for 1 ≤ n ≤ 31, writing the n bytes of b into a
freshly created pipe returns n with all of b placed in the ring, and a
subsequent read of n bytes — performed after every write end has been closed
(with a write end still open the reader, having copied the bytes out, would
suspend forever waiting for more) — returns exactly the bytes of b in the
order they were written.  Writing exactly 32 bytes never returns (see the
counterexample). -/
theorem pipe_roundtrip (bs : List Nat) (h1 : 1 ≤ bs.length) (h2 : bs.length ≤ 31) :
    pipeWriteLoop newRB bs 0 = some (writeChunk newRB bs, bs.length) ∧
    (pipeReadLoop (writeChunk newRB bs) bs.length [] true).map (fun r => r.2) =
      some bs := by
  have hw := writeChunk_spec bs newRB rfl (by simpa [newRB] using h2)
  have haw : available_write newRB = 32 := rfl
  constructor
  · unfold pipeWriteLoop
    rw [dif_neg (by rw [haw]; omega), dif_pos (by rw [haw]; omega)]
    rw [Nat.zero_add]
  · have hst : (writeChunk newRB bs).status = .normal := by
      rw [hw.2.2.2, if_neg (by omega)]
    have htl : (writeChunk newRB bs).tail = bs.length := by
      rw [hw.2.1]
      show 0 + bs.length = bs.length
      omega
    have har : available_read (writeChunk newRB bs) = bs.length := by
      unfold available_read
      rw [hst, htl, hw.1]
      rw [if_neg (by simp), if_pos (by omega)]
      omega
    have hrc := readChunk_spec bs.length (writeChunk newRB bs) (by rw [hw.1]; omega)
    have hout : (readChunk (writeChunk newRB bs) bs.length).2 = bs := by
      rw [hrc.2.2.2.2, hw.1]
      calc (List.range bs.length).map (fun k => (writeChunk newRB bs).arr (0 + k))
          = (List.range bs.length).map (fun k => bs.getD k 0) := by
            apply List.map_congr_left
            intro k hk
            rw [List.mem_range] at hk
            rw [Nat.zero_add]
            have := hw.2.2.1 k
            rw [this]
            simp only [newRB]
            rw [if_pos (by simp [newRB]; omega)]
            simp
        _ = bs := map_getD_range bs
    have hst2 : (readChunk (writeChunk newRB bs) bs.length).1.status = .empty := by
      rw [hrc.2.2.2.1, hw.1, htl]
      rw [if_neg (by omega), if_pos (by omega)]
    have har2 : available_read (readChunk (writeChunk newRB bs) bs.length).1 = 0 := by
      unfold available_read
      rw [hst2]
      simp
    unfold pipeReadLoop
    rw [dif_neg (by rw [har]; omega), dif_neg (by rw [har]; omega)]
    rw [har]
    unfold pipeReadLoop
    rw [dif_pos har2, if_pos rfl]
    simp [hout]

theorem pipe_roundtrip_witness :
    pipeWriteLoop newRB [1, 2, 3] 0 = some (writeChunk newRB [1, 2, 3], 3) ∧
    (pipeReadLoop (writeChunk newRB [1, 2, 3]) 3 [] true).map (fun r => r.2) =
      some [1, 2, 3] :=
  pipe_roundtrip [1, 2, 3] (by decide) (by decide)

end Pipe

namespace EasyFS

def BLOCK_SZ : Nat := 512
def INODE_DIRECT_COUNT : Nat := 28
def INODE_INDIRECT1_COUNT : Nat := 128
def INODE_INDIRECT2_COUNT : Nat := 16384
def INDIRECT1_BOUND : Nat := 156

/-- DiskInodeType from easy-fs/src/layout.rs (tag field named type_ there). -/
inductive DiskInodeType where
  | file
  | directory
deriving DecidableEq

/-- DiskInode from easy-fs/src/layout.rs: size, 28 direct slots (a function
consulted at indices below 28), the indirect1 and indirect2 block numbers,
and the type tag. -/
structure DiskInode where
  size : Nat
  direct : Nat → Nat
  indirect1 : Nat
  indirect2 : Nat
  typeTag : DiskInodeType

/-- DiskInode::_data_blocks: ceil(size / 512). -/
def dataBlocksOf (size : Nat) : Nat := (size + BLOCK_SZ - 1) / BLOCK_SZ

/-- DiskInode::total_blocks: data blocks plus the indirect1 block when more
than 28 data blocks, plus, past 156 data blocks, the indirect2 block and one
second-level indirect block per started row of 128. -/
def totalBlocks (size : Nat) : Nat :=
  let db := dataBlocksOf size
  db + (if INODE_DIRECT_COUNT < db then 1 else 0) +
    (if INDIRECT1_BOUND < db then
       1 + (db - INDIRECT1_BOUND + INODE_INDIRECT1_COUNT - 1) / INODE_INDIRECT1_COUNT
     else 0)

/-- The disk, read through the block cache: block id and 32-bit word index to
word value (only indirect index blocks are consulted here). -/
def Disk : Type := Nat → Nat → Nat

/-- DiskInode::get_block_id: direct below 28, the indirect1 block below 156,
the two-level indirect2 tree beyond. -/
def get_block_id (ino : DiskInode) (disk : Disk) (innerId : Nat) : Nat :=
  if innerId < INODE_DIRECT_COUNT then ino.direct innerId
  else if innerId < INDIRECT1_BOUND then disk ino.indirect1 (innerId - INODE_DIRECT_COUNT)
  else
    disk (disk ino.indirect2 ((innerId - INDIRECT1_BOUND) / INODE_INDIRECT1_COUNT))
      ((innerId - INDIRECT1_BOUND) % INODE_INDIRECT1_COUNT)

/-- The full rows of the indirect2 loop in clear_size: for each row index
below a, the second-level indirect block followed by its 128 data blocks. -/
def ind2FullRows (disk : Disk) (t : Nat) : Nat → List Nat
  | 0 => []
  | a + 1 =>
      ind2FullRows disk t a ++
        (disk t a :: (List.range INODE_INDIRECT1_COUNT).map (disk (disk t a)))

/-- DiskInode::clear_size (easy-fs/src/layout.rs lines 297-383): collect, in
the order encountered, the direct data blocks, then (past 28 data blocks) the
indirect1 block and its data blocks, then (past 156) the indirect2 block, its
full rows and the final partial row; zero the consumed direct slots and the
indirect1/indirect2 fields as the source does, and set size to 0.  The assert
that the remainder fits the indirect2 tree is modelled as none. -/
def clear_size (ino : DiskInode) (disk : Disk) : Option (DiskInode × List Nat) :=
  let db := dataBlocksOf ino.size
  let clearedDirect : Nat → Nat :=
    fun i => if i < min db INODE_DIRECT_COUNT then 0 else ino.direct i
  let v1 := (List.range (min db INODE_DIRECT_COUNT)).map ino.direct
  if db ≤ INODE_DIRECT_COUNT then
    some ({ size := 0, direct := clearedDirect, indirect1 := ino.indirect1,
            indirect2 := ino.indirect2, typeTag := ino.typeTag }, v1)
  else
    let db1 := db - INODE_DIRECT_COUNT
    let v2 := v1 ++ ino.indirect1 ::
      (List.range (min db1 INODE_INDIRECT1_COUNT)).map (disk ino.indirect1)
    if db1 ≤ INODE_INDIRECT1_COUNT then
      some ({ size := 0, direct := clearedDirect, indirect1 := 0,
              indirect2 := ino.indirect2, typeTag := ino.typeTag }, v2)
    else
      let db2 := db1 - INODE_INDIRECT1_COUNT
      if db2 ≤ INODE_INDIRECT2_COUNT then
        let a1 := db2 / INODE_INDIRECT1_COUNT
        let b1 := db2 % INODE_INDIRECT1_COUNT
        let rows := ind2FullRows disk ino.indirect2 a1 ++
          (if 0 < b1 then
             disk ino.indirect2 a1 :: (List.range b1).map (disk (disk ino.indirect2 a1))
           else [])
        some ({ size := 0, direct := clearedDirect, indirect1 := 0, indirect2 := 0,
                typeTag := ino.typeTag }, v2 ++ ino.indirect2 :: rows)
      else none

theorem length_ind2FullRows (disk : Disk) (t a : Nat) :
    (ind2FullRows disk t a).length = a * (INODE_INDIRECT1_COUNT + 1) := by
  induction a with
  | zero => rfl
  | succ a ih =>
      show (ind2FullRows disk t a ++ _).length = _
      rw [List.length_append, ih]
      simp only [List.length_cons, List.length_map, List.length_range]
      ring

theorem mem_ind2FullRows_row (disk : Disk) (t a q : Nat) (hq : q < a) :
    disk t q ∈ ind2FullRows disk t a := by
  induction a with
  | zero => omega
  | succ a ih =>
      show disk t q ∈ ind2FullRows disk t a ++ _
      rw [List.mem_append]
      by_cases hqa : q < a
      · exact Or.inl (ih hqa)
      · have : q = a := by omega
        subst this
        exact Or.inr (List.mem_cons_self _ _)

theorem mem_ind2FullRows_data (disk : Disk) (t a q r : Nat) (hq : q < a)
    (hr : r < INODE_INDIRECT1_COUNT) :
    disk (disk t q) r ∈ ind2FullRows disk t a := by
  induction a with
  | zero => omega
  | succ a ih =>
      show _ ∈ ind2FullRows disk t a ++ _
      rw [List.mem_append]
      by_cases hqa : q < a
      · exact Or.inl (ih hqa)
      · have : q = a := by omega
        subst this
        refine Or.inr (List.mem_cons_of_mem _ ?_)
        exact List.mem_map_of_mem _ (List.mem_range.mpr hr)

theorem IDC_eq : INODE_DIRECT_COUNT = 28 := rfl

theorem I1C_eq : INODE_INDIRECT1_COUNT = 128 := rfl

theorem I2C_eq : INODE_INDIRECT2_COUNT = 16384 := rfl

theorem I1B_eq : INDIRECT1_BOUND = 156 := rfl

/-- Claim C5: for a DiskInode of size s whose index tree is well-formed (the
slots beyond the used range are zero) and whose data fits the index tree
(at most 28+128+16384 data blocks), clear_size succeeds and returns exactly
totalBlocks s block numbers — including every data block reachable through
get_block_id and the indirect index blocks in use — and leaves the inode
with size 0 and all direct, indirect1 and indirect2 indices zero; the kernel
inode layer's clear deallocates each returned block, hence exactly
totalBlocks s blocks. -/
theorem clear_size_spec (ino : DiskInode) (disk : Disk)
    (hcap : dataBlocksOf ino.size ≤ 16540)
    (hwf1 : ∀ i, dataBlocksOf ino.size ≤ i → i < 28 → ino.direct i = 0)
    (hwf2 : dataBlocksOf ino.size ≤ 28 → ino.indirect1 = 0)
    (hwf3 : dataBlocksOf ino.size ≤ 156 → ino.indirect2 = 0) :
    (clear_size ino disk).isSome = true ∧
    ∀ ino2 v, clear_size ino disk = some (ino2, v) →
      v.length = totalBlocks ino.size ∧
      ino2.size = 0 ∧
      (∀ i, i < 28 → ino2.direct i = 0) ∧
      ino2.indirect1 = 0 ∧
      ino2.indirect2 = 0 ∧
      (∀ j, j < dataBlocksOf ino.size → get_block_id ino disk j ∈ v) ∧
      (28 < dataBlocksOf ino.size → ino.indirect1 ∈ v) ∧
      (156 < dataBlocksOf ino.size → ino.indirect2 ∈ v) := by
  have htb : totalBlocks ino.size =
      dataBlocksOf ino.size + (if 28 < dataBlocksOf ino.size then 1 else 0) +
        (if 156 < dataBlocksOf ino.size then
           1 + (dataBlocksOf ino.size - 156 + 128 - 1) / 128 else 0) := by
    simp only [totalBlocks, IDC_eq, I1C_eq, I1B_eq]
  have hgbid : ∀ j, get_block_id ino disk j =
      if j < 28 then ino.direct j
      else if j < 156 then disk ino.indirect1 (j - 28)
      else disk (disk ino.indirect2 ((j - 156) / 128)) ((j - 156) % 128) := by
    intro j
    simp only [get_block_id, IDC_eq, I1C_eq, I1B_eq]
  have hcs : clear_size ino disk =
      (let db := dataBlocksOf ino.size
       let clearedDirect : Nat → Nat := fun i => if i < min db 28 then 0 else ino.direct i
       let v1 := (List.range (min db 28)).map ino.direct
       if db ≤ 28 then
         some ({ size := 0, direct := clearedDirect, indirect1 := ino.indirect1,
                 indirect2 := ino.indirect2, typeTag := ino.typeTag }, v1)
       else
         let db1 := db - 28
         let v2 := v1 ++ ino.indirect1 :: (List.range (min db1 128)).map (disk ino.indirect1)
         if db1 ≤ 128 then
           some ({ size := 0, direct := clearedDirect, indirect1 := 0,
                   indirect2 := ino.indirect2, typeTag := ino.typeTag }, v2)
         else
           let db2 := db1 - 128
           if db2 ≤ 16384 then
             let a1 := db2 / 128
             let b1 := db2 % 128
             let rows := ind2FullRows disk ino.indirect2 a1 ++
               (if 0 < b1 then
                  disk ino.indirect2 a1 :: (List.range b1).map (disk (disk ino.indirect2 a1))
                else [])
             some ({ size := 0, direct := clearedDirect, indirect1 := 0, indirect2 := 0,
                     typeTag := ino.typeTag }, v2 ++ ino.indirect2 :: rows)
           else none) := by
    simp only [clear_size, IDC_eq, I1C_eq, I2C_eq, I1B_eq]
  rw [hcs]
  simp only []
  by_cases h28 : dataBlocksOf ino.size ≤ 28
  · -- only direct blocks in use
    have hmin : min (dataBlocksOf ino.size) 28 = dataBlocksOf ino.size :=
      Nat.min_eq_left h28
    rw [if_pos h28]
    constructor
    · rfl
    intro ino2 v h
    cases h
    refine ⟨?_, rfl, ?_, hwf2 h28, hwf3 (by omega), ?_, ?_, ?_⟩
    · rw [List.length_map, List.length_range, hmin, htb]
      rw [if_neg (by omega), if_neg (by omega)]
      omega
    · intro i hi
      show (if i < min (dataBlocksOf ino.size) 28 then 0 else ino.direct i) = 0
      rw [hmin]
      by_cases hid : i < dataBlocksOf ino.size
      · rw [if_pos hid]
      · rw [if_neg hid]
        exact hwf1 i (by omega) hi
    · intro j hj
      rw [hgbid j, if_pos (by omega), hmin]
      exact List.mem_map_of_mem _ (List.mem_range.mpr hj)
    · intro hc
      omega
    · intro hc
      omega
  · have hmin : min (dataBlocksOf ino.size) 28 = 28 := Nat.min_eq_right (by omega)
    rw [if_neg h28]
    by_cases h128 : dataBlocksOf ino.size - 28 ≤ 128
    · -- direct plus a partially used indirect1 block
      have hmin2 : min (dataBlocksOf ino.size - 28) 128 = dataBlocksOf ino.size - 28 :=
        Nat.min_eq_left h128
      rw [if_pos h128]
      constructor
      · rfl
      intro ino2 v h
      cases h
      refine ⟨?_, rfl, ?_, rfl, hwf3 (by omega), ?_, ?_, ?_⟩
      · rw [List.length_append, List.length_map, List.length_range, List.length_cons,
            List.length_map, List.length_range, hmin, hmin2, htb]
        rw [if_pos (by omega), if_neg (by omega)]
        omega
      · intro i hi
        show (if i < min (dataBlocksOf ino.size) 28 then 0 else ino.direct i) = 0
        rw [hmin, if_pos hi]
      · intro j hj
        rw [List.mem_append, hgbid j]
        by_cases hj28 : j < 28
        · refine Or.inl ?_
          rw [if_pos hj28, hmin]
          exact List.mem_map_of_mem _ (List.mem_range.mpr hj28)
        · refine Or.inr ?_
          rw [if_neg hj28, if_pos (by omega)]
          refine List.mem_cons_of_mem _ ?_
          rw [hmin2]
          exact List.mem_map_of_mem _ (List.mem_range.mpr (by omega))
      · intro _
        exact List.mem_append_right _ (List.mem_cons_self _ _)
      · intro hc
        omega
    · -- the indirect2 tree is in use
      have hmin2 : min (dataBlocksOf ino.size - 28) 128 = 128 :=
        Nat.min_eq_right (by omega)
      have hdb2 : dataBlocksOf ino.size - 28 - 128 = dataBlocksOf ino.size - 156 := by
        omega
      have hfit : dataBlocksOf ino.size - 28 - 128 ≤ 16384 := by omega
      rw [if_neg h128, if_pos hfit]
      constructor
      · rfl
      intro ino2 v h
      cases h
      refine ⟨?_, rfl, ?_, rfl, rfl, ?_, ?_, ?_⟩
      · rw [List.length_append, List.length_cons, List.length_append,
            List.length_append, List.length_map, List.length_range, List.length_cons,
            List.length_map, List.length_range, hmin, hmin2,
            length_ind2FullRows, I1C_eq, htb, hdb2]
        by_cases hb1 : 0 < (dataBlocksOf ino.size - 156) % 128
        · rw [if_pos hb1]
          simp only [List.length_cons, List.length_map, List.length_range]
          rw [if_pos (by omega), if_pos (by omega)]
          omega
        · rw [if_neg hb1]
          simp only [List.length_nil]
          rw [if_pos (by omega), if_pos (by omega)]
          omega
      · intro i hi
        show (if i < min (dataBlocksOf ino.size) 28 then 0 else ino.direct i) = 0
        rw [hmin, if_pos hi]
      · intro j hj
        rw [List.mem_append, hgbid j]
        by_cases hj28 : j < 28
        · refine Or.inl (List.mem_append_left _ ?_)
          rw [if_pos hj28, hmin]
          exact List.mem_map_of_mem _ (List.mem_range.mpr hj28)
        · by_cases hj156 : j < 156
          · refine Or.inl (List.mem_append_right _ ?_)
            rw [if_neg hj28, if_pos hj156]
            refine List.mem_cons_of_mem _ ?_
            rw [hmin2]
            exact List.mem_map_of_mem _ (List.mem_range.mpr (by omega))
          · refine Or.inr (List.mem_cons_of_mem _ ?_)
            rw [if_neg hj28, if_neg hj156, hdb2]
            rw [List.mem_append]
            by_cases hq : (j - 156) / 128 < (dataBlocksOf ino.size - 156) / 128
            · exact Or.inl (mem_ind2FullRows_data disk ino.indirect2 _ _ _ hq
                (by rw [I1C_eq]; omega))
            · have hqe : (j - 156) / 128 = (dataBlocksOf ino.size - 156) / 128 := by
                omega
              have hr : (j - 156) % 128 < (dataBlocksOf ino.size - 156) % 128 := by
                omega
              refine Or.inr ?_
              rw [if_pos (by omega), hqe]
              refine List.mem_cons_of_mem _ ?_
              exact List.mem_map_of_mem _ (List.mem_range.mpr hr)
      · intro _
        refine List.mem_append_left _ (List.mem_append_right _ ?_)
        exact List.mem_cons_self _ _
      · intro _
        exact List.mem_append_right _ (List.mem_cons_self _ _)

def inoC5 : DiskInode := ⟨1000, fun i => if i < 2 then i + 10 else 0, 0, 0, .file⟩

def diskC5 : Disk := fun _ _ => 0

def clearC5 : DiskInode × List Nat := (clear_size inoC5 diskC5).getD (inoC5, [])

theorem clear_size_spec_witness :
    (clear_size inoC5 diskC5).isSome = true ∧
    clearC5.2.length = totalBlocks 1000 ∧ clearC5.1.size = 0 :=
  have hcap : dataBlocksOf inoC5.size ≤ 16540 := by decide
  have hwf1 : ∀ i, dataBlocksOf inoC5.size ≤ i → i < 28 → inoC5.direct i = 0 := by
    intro i h1 h2
    have e : dataBlocksOf inoC5.size = 2 := by decide
    rw [e] at h1
    show (if i < 2 then i + 10 else 0) = 0
    rw [if_neg (by omega)]
  have hs := clear_size_spec inoC5 diskC5 hcap hwf1 (fun _ => rfl) (fun _ => rfl)
  have hr := hs.2 clearC5.1 clearC5.2 rfl
  ⟨hs.1, hr.1, hr.2.1⟩

end EasyFS

namespace Vfs

/-- A 32-byte directory entry of the root directory (easy-fs/src/layout.rs,
DirEntry): name and inode number. -/
structure DirEntryM where
  name : String
  inodeNum : Nat
deriving DecidableEq

/-- The root directory's DiskInode, viewed at directory-entry granularity:
its byte size and the decoded list of its 32-byte entries (an invariant of
use, entries.length * 32 = size, is a hypothesis of the theorem). -/
structure RootDir where
  size : Nat
  entries : List DirEntryM
deriving DecidableEq

/-- The file-system façade state consulted by Inode::create: the inode
bitmap (inodes are never freed, so the first clear bit is a counter), the
count of allocated data blocks, and the initialized type of each inode. -/
structure FsState where
  allocatedInodes : Nat
  allocatedData : Nat
  inodeType : Nat → Option EasyFS.DiskInodeType

def DIRENT_SZ : Nat := 32

/-- Inode::find_inode_id on the root directory: scan the entries in order
for an exact name match. -/
def find_inode_id (name : String) (root : RootDir) : Option Nat :=
  (root.entries.find? (fun e => e.name == name)).map DirEntryM.inodeNum

/-- DiskInode::blocks_num_needed. -/
def blocks_num_needed (curSize newSize : Nat) : Nat :=
  EasyFS.totalBlocks newSize - EasyFS.totalBlocks curSize

/-- Inode::increase_size (easy-fs/src/vfs.rs lines 110-125): no-op when the
new size is below the current one, otherwise allocate the needed blocks from
the data bitmap and grow the inode. -/
def increase_size (fs : FsState) (root : RootDir) (newSize : Nat) :
    FsState × RootDir :=
  if newSize < root.size then (fs, root)
  else ({ fs with allocatedData := fs.allocatedData + blocks_num_needed root.size newSize },
        { root with size := newSize })

/-- Inode::create (easy-fs/src/vfs.rs lines 128-175): return none if a
directory entry with the name exists; otherwise allocate a fresh inode,
initialize it as a File, grow the root directory by one entry slot
((file_count + 1) * 32 bytes) and write the new 32-byte entry at the end. -/
def create (fs : FsState) (root : RootDir) (name : String) :
    Option Nat × FsState × RootDir :=
  if (find_inode_id name root).isSome then (none, fs, root)
  else
    let newInodeId := fs.allocatedInodes
    let fs1 : FsState :=
      { allocatedInodes := fs.allocatedInodes + 1
        allocatedData := fs.allocatedData
        inodeType := fun i => if i = newInodeId then some .file else fs.inodeType i }
    let fileCount := root.size / DIRENT_SZ
    let p := increase_size fs1 root ((fileCount + 1) * DIRENT_SZ)
    (some newInodeId, p.1,
      { size := p.2.size, entries := p.2.entries ++ [DirEntryM.mk name newInodeId] })

/-- Claim C10: create(name) on the root directory returns none and changes
nothing — allocating no inode and no data block — when an entry with that
exact name exists; otherwise it allocates a fresh inode, initializes it as a
File, and appends one 32-byte directory entry for it, growing the root
directory's size by exactly 32 bytes. -/
theorem create_spec (fs : FsState) (root : RootDir) (name : String)
    (hlen : root.entries.length * DIRENT_SZ = root.size) :
    ((find_inode_id name root).isSome → create fs root name = (none, fs, root)) ∧
    (find_inode_id name root = none →
      (create fs root name).1 = some fs.allocatedInodes ∧
      (create fs root name).2.1.allocatedInodes = fs.allocatedInodes + 1 ∧
      (create fs root name).2.1.inodeType fs.allocatedInodes =
        some EasyFS.DiskInodeType.file ∧
      (create fs root name).2.2.size = root.size + DIRENT_SZ ∧
      (create fs root name).2.2.entries =
        root.entries ++ [DirEntryM.mk name fs.allocatedInodes]) := by
  constructor
  · intro h
    simp only [create, if_pos h]
  · intro h
    have hiss : (find_inode_id name root).isSome = false := by
      rw [h]
      rfl
    have hsz : (root.size / DIRENT_SZ + 1) * DIRENT_SZ = root.size + DIRENT_SZ := by
      simp only [DIRENT_SZ] at *
      omega
    have hinc : ¬((root.size / DIRENT_SZ + 1) * DIRENT_SZ < root.size) := by
      rw [hsz]
      simp only [DIRENT_SZ]
      omega
    have hcreate : create fs root name =
        (some fs.allocatedInodes,
         { allocatedInodes := fs.allocatedInodes + 1
           allocatedData := fs.allocatedData +
             blocks_num_needed root.size ((root.size / DIRENT_SZ + 1) * DIRENT_SZ)
           inodeType := fun i => if i = fs.allocatedInodes then some EasyFS.DiskInodeType.file
             else fs.inodeType i },
         { size := (root.size / DIRENT_SZ + 1) * DIRENT_SZ
           entries := root.entries ++ [DirEntryM.mk name fs.allocatedInodes] }) := by
      simp only [create, hiss, Bool.false_eq_true, if_false, increase_size, if_neg hinc]
    refine ⟨by rw [hcreate], by rw [hcreate], ?_, by rw [hcreate]; exact hsz,
      by rw [hcreate]⟩
    rw [hcreate]
    show (if fs.allocatedInodes = fs.allocatedInodes then some EasyFS.DiskInodeType.file
          else fs.inodeType fs.allocatedInodes) = some EasyFS.DiskInodeType.file
    rw [if_pos rfl]

def fsC10 : FsState := ⟨1, 0, fun i => if i = 0 then some .directory else none⟩

def rootC10 : RootDir := ⟨32, [⟨"app", 7⟩]⟩

theorem create_spec_witness :
    find_inode_id "b" rootC10 = none ∧
    (create fsC10 rootC10 "b").1 = some 1 ∧
    (create fsC10 rootC10 "b").2.1.allocatedInodes = 2 ∧
    (create fsC10 rootC10 "b").2.1.inodeType 1 = some EasyFS.DiskInodeType.file ∧
    (create fsC10 rootC10 "b").2.2.size = 64 ∧
    (create fsC10 rootC10 "b").2.2.entries = [⟨"app", 7⟩, ⟨"b", 1⟩] :=
  have h := (create_spec fsC10 rootC10 "b" (by decide)).2 (by decide)
  ⟨by decide, h.1, h.2.1, h.2.2.1, h.2.2.2.1, h.2.2.2.2⟩

end Vfs

namespace PT

def PAGE_SIZE : Nat := 4096

/-- PageTableEntry::new: bits = ppn << 10 | flags; the flags occupy the low
8 bits, disjoint from the shifted frame number, so the bitwise or is
addition. -/
def pteNew (ppn flags : Nat) : Nat := ppn * 2 ^ 10 + flags

/-- PageTableEntry::ppn: bits >> 10 & (2^44 - 1). -/
def ptePpn (e : Nat) : Nat := e / 2 ^ 10 % 2 ^ 44

/-- PageTableEntry::flags: bits as u8. -/
def pteFlags (e : Nat) : Nat := e % 2 ^ 8

/-- PageTableEntry::is_valid: the V flag is bit 0. -/
def pteIsValid (e : Nat) : Bool := e % 2 = 1

/-- PageTableEntry::readable: the R flag is bit 1. -/
def pteReadable (e : Nat) : Bool := e / 2 % 2 = 1

/-- PageTableEntry::writable: the W flag is bit 2. -/
def pteWritable (e : Nat) : Bool := e / 4 % 2 = 1

/-- flags | PTEFlags::V: set bit 0, keep the rest. -/
def orV (flags : Nat) : Nat := 2 * (flags / 2) + 1

/-- VirtPageNum::indexes, high to low: three 9-bit fields. -/
def idx0 (vpn : Nat) : Nat := vpn / 2 ^ 18 % 512

def idx1 (vpn : Nat) : Nat := vpn / 2 ^ 9 % 512

def idx2 (vpn : Nat) : Nat := vpn % 512

/-- The global frame allocator as seen by the page-table walker (same
StackFrameAllocator as in FrameAlloc, without the byte memory, which here
lives in Mach.mem as pte arrays). -/
structure AllocSt where
  current : Nat
  frameEnd : Nat
  recycled : List Nat

def allocF (a : AllocSt) : Option (Nat × AllocSt) :=
  match a.recycled with
  | ppn :: rest => some (ppn, { a with recycled := rest })
  | [] =>
      if a.current = a.frameEnd then none
      else some (a.current, { a with current := a.current + 1 })

/-- Machine state for page-table walking: physical memory viewed as pte
arrays (frame number and index below 512 to pte bits) plus the allocator. -/
structure Mach where
  mem : Nat → Nat → Nat
  alloc : AllocSt

/-- Write one page-table entry ( *pte = ... through get_pte_array). -/
def writePte (m : Mach) (p i e : Nat) : Mach :=
  { m with mem := fun q j => if q = p ∧ j = i then e else m.mem q j }

/-- FrameTracker::new zeroes the freshly allocated frame. -/
def zeroFrame (m : Mach) (p : Nat) : Mach :=
  { m with mem := fun q j => if q = p then 0 else m.mem q j }

/-- One interior level of PageTable::find_pte_create: descend through a
valid entry, otherwise allocate a fresh (zeroed) frame and write a non-leaf
entry (flags = V) pointing at it; none models the frame_alloc unwrap panic. -/
def stepCreate (m : Mach) (p idx : Nat) : Option (Mach × Nat) :=
  if pteIsValid (m.mem p idx) then some (m, ptePpn (m.mem p idx))
  else
    match allocF m.alloc with
    | none => none
    | some (f, a2) =>
        some (writePte (zeroFrame { mem := m.mem, alloc := a2 } f) p idx (pteNew f 1), f)

/-- PageTable::find_pte_create: walk the two interior levels, return the
machine together with the frame and index of the leaf entry. -/
def find_pte_create (m : Mach) (root vpn : Nat) : Option (Mach × Nat × Nat) :=
  match stepCreate m root (idx0 vpn) with
  | none => none
  | some (m1, p1) =>
      match stepCreate m1 p1 (idx1 vpn) with
      | none => none
      | some (m2, p2) => some (m2, p2, idx2 vpn)

/-- PageTable::map: find (or create) the leaf, assert it is invalid, then
write ppn with flags | V. -/
def mapVpn (m : Mach) (root vpn ppn flags : Nat) : Option Mach :=
  match find_pte_create m root vpn with
  | none => none
  | some (m2, p, i) =>
      if pteIsValid (m2.mem p i) then none
      else some (writePte m2 p i (pteNew ppn (orV flags)))

/-- PageTable::find_pte: the read-only walk; fails if an interior entry is
invalid, and returns the leaf entry (valid or not) otherwise. -/
def find_pte (mem : Nat → Nat → Nat) (root vpn : Nat) : Option Nat :=
  let e0 := mem root (idx0 vpn)
  if pteIsValid e0 then
    let e1 := mem (ptePpn e0) (idx1 vpn)
    if pteIsValid e1 then some (mem (ptePpn e1) (idx2 vpn))
    else none
  else none

/-- PageTable::translate: copy of the leaf found by find_pte. -/
def translate (mem : Nat → Nat → Nat) (root vpn : Nat) : Option Nat :=
  find_pte mem root vpn

/-- A frame is live (owned by someone) if it is below the watermark and not
recycled; allocF only ever hands out frames that are not live. -/
def notFree (a : AllocSt) (p : Nat) : Prop := p < a.current ∧ p ∉ a.recycled

/-- The allocator invariants: watermark inside the (bounded) range,
recycled frames distinct and below the watermark. -/
def allocInv (a : AllocSt) : Prop :=
  a.current ≤ a.frameEnd ∧ a.frameEnd ≤ 2 ^ 44 ∧ a.recycled.Nodup ∧
    ∀ p ∈ a.recycled, p < a.current

/-- Well-formedness of a page-table machine: allocator invariants hold, the
root frame is live, and every valid entry points at a live frame that is
neither the root nor the frame containing the entry. -/
def wf (m : Mach) (root : Nat) : Prop :=
  allocInv m.alloc ∧ notFree m.alloc root ∧
  ∀ p i, pteIsValid (m.mem p i) = true →
    notFree m.alloc (ptePpn (m.mem p i)) ∧
    ptePpn (m.mem p i) ≠ root ∧ ptePpn (m.mem p i) ≠ p

theorem allocF_spec (a : AllocSt) (f : Nat) (a2 : AllocSt)
    (hinv : allocInv a) (h : allocF a = some (f, a2)) :
    f < 2 ^ 44 ∧ (∀ q, notFree a q → q ≠ f) ∧ (∀ q, notFree a q → notFree a2 q) ∧
    notFree a2 f ∧ allocInv a2 := by
  obtain ⟨h1, h2, h3, h4⟩ := hinv
  unfold allocF at h
  rcases a with ⟨cur, fend, rec⟩
  dsimp only at h1 h2 h3 h4 h
  cases rec with
  | cons p rest =>
      simp only [Option.some.injEq, Prod.mk.injEq] at h
      obtain ⟨hf, ha⟩ := h
      subst hf
      subst ha
      simp only [List.nodup_cons] at h3
      have hp : p < cur := h4 p (List.mem_cons_self p rest)
      refine ⟨by omega, ?_, ?_, ?_, ?_⟩
      · intro q hq hqf
        subst hqf
        exact hq.2 (List.mem_cons_self q rest)
      · intro q hq
        exact ⟨hq.1, fun hm => hq.2 (List.mem_cons_of_mem p hm)⟩
      · exact ⟨hp, h3.1⟩
      · exact ⟨h1, h2, h3.2, fun q hq => h4 q (List.mem_cons_of_mem p hq)⟩
  | nil =>
      by_cases hc : cur = fend
      · simp [hc] at h
      · simp only [hc, if_false, Option.some.injEq, Prod.mk.injEq] at h
        obtain ⟨hf, ha⟩ := h
        subst hf
        subst ha
        refine ⟨by omega, ?_, ?_, ?_, ?_⟩
        · intro q hq hqf
          have h5 : q < cur := hq.1
          omega
        · intro q hq
          have h5 : q < cur := hq.1
          exact ⟨show q < cur + 1 by omega, hq.2⟩
        · exact ⟨show cur < cur + 1 by omega, by simp⟩
        · exact ⟨show cur + 1 ≤ fend by omega, show fend ≤ 2 ^ 44 by omega,
            by simp, by simp⟩

theorem ptePpn_pteNew (ppn flags : Nat) (hp : ppn < 2 ^ 44) (hf : flags < 2 ^ 10) :
    ptePpn (pteNew ppn flags) = ppn := by
  unfold ptePpn pteNew
  omega

theorem pteIsValid_pteNew_orV (ppn flags : Nat) :
    pteIsValid (pteNew ppn (orV flags)) = true := by
  unfold pteIsValid pteNew orV
  simp only [decide_eq_true_eq]
  omega

theorem pteIsValid_pteNew_one (ppn : Nat) : pteIsValid (pteNew ppn 1) = true := by
  unfold pteIsValid pteNew
  simp only [decide_eq_true_eq]
  omega

theorem pteFlags_pteNew (ppn flags : Nat) (hf : flags < 2 ^ 8) :
    pteFlags (pteNew ppn flags) = flags := by
  unfold pteFlags pteNew
  omega

theorem orV_lt (flags : Nat) (hf : flags < 2 ^ 8) : orV flags < 2 ^ 8 := by
  unfold orV
  omega

theorem testBit_orV (f k : Nat) (h : Nat.testBit f k = true) :
    Nat.testBit (orV f) k = true := by
  unfold orV
  cases k with
  | zero =>
      rw [Nat.testBit_zero]
      simp only [Nat.mul_add_mod]
      rfl
  | succ k =>
      rw [Nat.testBit_succ] at h ⊢
      have he : (2 * (f / 2) + 1) / 2 = f / 2 := by omega
      rw [he]
      exact h

theorem stepCreate_spec (m : Mach) (root p idx : Nat) (m1 : Mach) (p1 : Nat)
    (hwf : wf m root) (hlive : notFree m.alloc p)
    (h : stepCreate m p idx = some (m1, p1)) :
    wf m1 root ∧
    notFree m1.alloc p1 ∧ p1 ≠ root ∧ p1 ≠ p ∧
    pteIsValid (m1.mem p idx) = true ∧ ptePpn (m1.mem p idx) = p1 ∧
    (∀ q j, q ≠ p1 → ¬(q = p ∧ j = idx) → m1.mem q j = m.mem q j) ∧
    (∀ q, notFree m.alloc q → notFree m1.alloc q) := by
  obtain ⟨hinv, hroot, hpte⟩ := hwf
  unfold stepCreate at h
  by_cases hv : pteIsValid (m.mem p idx) = true
  · rw [if_pos hv] at h
    simp only [Option.some.injEq, Prod.mk.injEq] at h
    obtain ⟨hm, hp⟩ := h
    subst hm
    subst hp
    obtain ⟨ha, hb, hc⟩ := hpte p idx hv
    exact ⟨⟨hinv, hroot, hpte⟩, ha, hb, hc, hv, rfl,
      fun q j _ _ => rfl, fun q hq => hq⟩
  · rw [if_neg hv] at h
    cases hal : allocF m.alloc with
    | none =>
        rw [hal] at h
        exact absurd h (by simp)
    | some pr =>
        obtain ⟨f, a2⟩ := pr
        rw [hal] at h
        simp only [Option.some.injEq, Prod.mk.injEq] at h
        obtain ⟨hm, hp⟩ := h
        subst hp
        subst hm
        obtain ⟨hf44, hfresh, hmono, hfree2, hinv2⟩ := allocF_spec m.alloc f a2 hinv hal
        have hm1 : ∀ q j,
            (writePte (zeroFrame { mem := m.mem, alloc := a2 } f) p idx
                (pteNew f 1)).mem q j =
              if q = p ∧ j = idx then pteNew f 1
              else if q = f then 0 else m.mem q j := fun q j => rfl
        have hppn1 : ptePpn (pteNew f 1) = f :=
          ptePpn_pteNew f 1 hf44 (by omega)
        have hfr : f ≠ root := fun he => hfresh root hroot he.symm
        have hfp : f ≠ p := fun he => hfresh p hlive he.symm
        refine ⟨⟨hinv2, hmono root hroot, ?_⟩, hfree2, hfr, hfp, ?_, ?_, ?_, hmono⟩
        · intro q j hqv
          rw [hm1 q j] at hqv
          by_cases h1 : q = p ∧ j = idx
          · rw [hm1 q j, if_pos h1]
            rw [if_pos h1] at hqv
            rw [hppn1]
            exact ⟨hfree2, hfr, by rw [h1.1]; exact hfp⟩
          · rw [hm1 q j, if_neg h1]
            rw [if_neg h1] at hqv
            by_cases h2 : q = f
            · rw [if_pos h2] at hqv
              exact absurd hqv (by decide)
            · rw [if_neg h2] at hqv
              rw [if_neg h2]
              obtain ⟨ha, hb, hc⟩ := hpte q j hqv
              exact ⟨hmono _ ha, hb, hc⟩
        · rw [hm1 p idx, if_pos ⟨rfl, rfl⟩]
          exact pteIsValid_pteNew_one f
        · rw [hm1 p idx, if_pos ⟨rfl, rfl⟩]
          exact hppn1
        · intro q j hq1 hq2
          rw [hm1 q j, if_neg hq2, if_neg hq1]

/-- Claim C7: for a well-formed page table whose frames fit the 44-bit frame
field, if map(vpn, ppn, f) succeeds (the leaf was invalid and interior
frames could be allocated), then translate(vpn) returns a leaf entry whose
bits are exactly pteNew ppn (f | V): its frame number is ppn, its Valid flag
is set, and its flag set contains every flag of f. -/
theorem map_then_translate (m : Mach) (root vpn ppn flags : Nat) (m3 : Mach)
    (hwf : wf m root) (hppn : ppn < 2 ^ 44) (hflags : flags < 2 ^ 8)
    (hmap : mapVpn m root vpn ppn flags = some m3) :
    translate m3.mem root vpn = some (pteNew ppn (orV flags)) ∧
    ptePpn (pteNew ppn (orV flags)) = ppn ∧
    pteIsValid (pteNew ppn (orV flags)) = true ∧
    pteFlags (pteNew ppn (orV flags)) = orV flags ∧
    (∀ k, Nat.testBit flags k = true →
      Nat.testBit (pteFlags (pteNew ppn (orV flags))) k = true) := by
  have horv : orV flags < 2 ^ 8 := orV_lt flags hflags
  have hflagsN : pteFlags (pteNew ppn (orV flags)) = orV flags :=
    pteFlags_pteNew ppn (orV flags) horv
  refine ⟨?_, ptePpn_pteNew ppn (orV flags) hppn (by unfold orV at *; omega),
    pteIsValid_pteNew_orV ppn flags, hflagsN, ?_⟩
  · unfold mapVpn find_pte_create at hmap
    cases h0 : stepCreate m root (idx0 vpn) with
    | none =>
        rw [h0] at hmap
        exact absurd hmap (by simp)
    | some pr0 =>
        obtain ⟨ma, pa⟩ := pr0
        rw [h0] at hmap
        dsimp only at hmap
        cases h1 : stepCreate ma pa (idx1 vpn) with
        | none =>
            rw [h1] at hmap
            exact absurd hmap (by simp)
        | some pr1 =>
            obtain ⟨m2, pb⟩ := pr1
            rw [h1] at hmap
            dsimp only at hmap
            obtain ⟨hwfa, hlivea, hpar, hpap, hva, hppa, hcha, hmona⟩ :=
              stepCreate_spec m root root (idx0 vpn) ma pa hwf hwf.2.1 h0
            obtain ⟨hwfb, hliveb, hpbr, hpbpa, hvb, hppb, hchb, hmonb⟩ :=
              stepCreate_spec ma root pa (idx1 vpn) m2 pb hwfa hlivea h1
            by_cases hleaf : pteIsValid (m2.mem pb (idx2 vpn)) = true
            · rw [if_pos hleaf] at hmap
              exact absurd hmap (by simp)
            · rw [if_neg hleaf] at hmap
              simp only [Option.some.injEq] at hmap
              subst hmap
              have hm3 : ∀ q j, (writePte m2 pb (idx2 vpn) (pteNew ppn (orV flags))).mem q j =
                  if q = pb ∧ j = idx2 vpn then pteNew ppn (orV flags)
                  else m2.mem q j := fun q j => rfl
              have he0 : (writePte m2 pb (idx2 vpn) (pteNew ppn (orV flags))).mem root
                  (idx0 vpn) = ma.mem root (idx0 vpn) := by
                rw [hm3, if_neg (by intro hx; exact hpbr hx.1.symm)]
                exact hchb root (idx0 vpn) (fun hx => hpbr hx.symm)
                  (fun hx => hpar hx.1.symm)
              have he1 : (writePte m2 pb (idx2 vpn) (pteNew ppn (orV flags))).mem pa
                  (idx1 vpn) = m2.mem pa (idx1 vpn) := by
                rw [hm3, if_neg (by intro hx; exact hpbpa hx.1.symm)]
              have he2 : (writePte m2 pb (idx2 vpn) (pteNew ppn (orV flags))).mem pb
                  (idx2 vpn) = pteNew ppn (orV flags) := by
                rw [hm3, if_pos ⟨rfl, rfl⟩]
              simp only [translate, find_pte]
              rw [he0, if_pos hva, hppa, he1, if_pos hvb, hppb, he2]
  · intro k hk
    rw [hflagsN]
    exact testBit_orV flags k hk

def m0c : Mach := ⟨fun _ _ => 0, ⟨1, 10, []⟩⟩

def m3c : Mach := (mapVpn m0c 0 66 7 4).getD m0c

theorem map_then_translate_witness :
    translate m3c.mem 0 66 = some (pteNew 7 (orV 4)) := by
  have hwf : wf m0c 0 := by
    refine ⟨⟨show (1 : Nat) ≤ 10 by omega, show (10 : Nat) ≤ 2 ^ 44 by norm_num,
      show ([] : List Nat).Nodup by simp, ?_⟩,
      ⟨show (0 : Nat) < 1 by omega, show (0 : Nat) ∉ ([] : List Nat) by simp⟩, ?_⟩
    · intro p hp
      exact absurd hp (List.not_mem_nil p)
    · intro p i hv
      rw [show pteIsValid (m0c.mem p i) = false from rfl] at hv
      exact absurd hv (by simp)
  exact (map_then_translate m0c 0 66 7 4 m3c hwf (by norm_num) (by norm_num) rfl).1

end PT

namespace Waitpid

/-- virtual_addr_writable (os/src/mm/page_table.rs lines 219-227): translate
the page of the address with the read-only walker and require Valid, Read
and Write on the leaf. -/
def virtual_addr_writable (mem : Nat → Nat → Nat) (root va : Nat) : Bool :=
  match PT.translate mem root (va / PT.PAGE_SIZE) with
  | some e => PT.pteIsValid e && PT.pteReadable e && PT.pteWritable e
  | none => false

/-- translate_va (os/src/mm/page_table.rs lines 159-169): physical page of
the leaf plus the page offset (no validity check of the leaf itself). -/
def translate_va (mem : Nat → Nat → Nat) (root va : Nat) : Option Nat :=
  (PT.find_pte mem root (va / PT.PAGE_SIZE)).map
    (fun e => PT.ptePpn e * PT.PAGE_SIZE + va % PT.PAGE_SIZE)

/-- What sys_waitpid reads of a child task control block: pid, whether its
state is Zombie, and its recorded exit code. -/
structure ChildPCB where
  pid : Nat
  zombie : Bool
  exitCode : Int
deriving DecidableEq

/-- pid == -1 || pid == 0 || pid as usize == p.getpid(): the i64-to-usize
cast wraps modulo 2^64. -/
def pidMatches (pid : Int) (c : ChildPCB) : Bool :=
  pid == -1 || pid == 0 || pid.emod (2 ^ 64) == (c.pid : Int)

/-- Result of one sys_waitpid_non_blocking call: the return value, the
caller's child list afterwards, and the write performed through the
translated exit-code pointer (physical address and value), if any. -/
structure WaitResult where
  ret : Int
  children : List ChildPCB
  written : Option (Nat × Int)
deriving DecidableEq

/-- sys_waitpid_non_blocking (os/src/syscall/process.rs lines 143-197):
-1 if no child matches; else, if some matching child is a Zombie, remove the
first such child from the list and, when the exit-code pointer passes the
writability check, write its exit code through the translated pointer and
return its pid, and otherwise return -1 (the child stays removed); else -2.
The Arc strong-count assertion of the source is about reference counts and
has no observable effect here. -/
def sys_waitpid_non_blocking (mem : Nat → Nat → Nat) (root : Nat)
    (children : List ChildPCB) (pid : Int) (ptr : Nat) : WaitResult :=
  if (children.find? (pidMatches pid)).isNone then ⟨-1, children, none⟩
  else
    match children.find? (fun c => c.zombie && pidMatches pid c) with
    | some child =>
        if virtual_addr_writable mem root ptr then
          ⟨(child.pid : Int), children.eraseP (fun c => c.zombie && pidMatches pid c),
           (translate_va mem root ptr).map (fun pa => (pa, child.exitCode))⟩
        else
          ⟨-1, children.eraseP (fun c => c.zombie && pidMatches pid c), none⟩
    | none => ⟨-2, children, none⟩

/-- Claim C1: sys_waitpid_non_blocking returns -1 with the child list
unchanged when no child matches pid (-1 and 0 match any child); when a
matching child is a Zombie, the first such child is removed from the list
and, if the exit-code pointer passes the writability check, its exit code is
written through the translated pointer and its pid returned, while a
non-writable pointer yields -1; when matching children exist but none is a
Zombie, it returns -2 with the list unchanged. -/
theorem sys_waitpid_spec (mem : Nat → Nat → Nat) (root : Nat)
    (children : List ChildPCB) (pid : Int) (ptr : Nat) :
    ((∀ c ∈ children, pidMatches pid c = false) →
      sys_waitpid_non_blocking mem root children pid ptr = ⟨-1, children, none⟩) ∧
    ((∃ c ∈ children, pidMatches pid c = true) →
      (∀ c ∈ children, c.zombie = true → pidMatches pid c = false) →
      sys_waitpid_non_blocking mem root children pid ptr = ⟨-2, children, none⟩) ∧
    (∀ c, children.find? (fun x => x.zombie && pidMatches pid x) = some c →
      (sys_waitpid_non_blocking mem root children pid ptr).children =
        children.eraseP (fun x => x.zombie && pidMatches pid x) ∧
      (virtual_addr_writable mem root ptr = true →
        (sys_waitpid_non_blocking mem root children pid ptr).ret = (c.pid : Int) ∧
        ∃ pa, translate_va mem root ptr = some pa ∧
          (sys_waitpid_non_blocking mem root children pid ptr).written =
            some (pa, c.exitCode)) ∧
      (virtual_addr_writable mem root ptr = false →
        (sys_waitpid_non_blocking mem root children pid ptr).ret = -1 ∧
        (sys_waitpid_non_blocking mem root children pid ptr).written = none)) := by
  refine ⟨?_, ?_, ?_⟩
  · intro h
    have hf : children.find? (pidMatches pid) = none :=
      List.find?_eq_none.mpr (fun c hc => by rw [h c hc]; simp)
    simp only [sys_waitpid_non_blocking, hf, Option.isNone_none, if_true]
  · intro hex hnz
    have hf : (children.find? (pidMatches pid)).isNone = false := by
      obtain ⟨c, hc, hp⟩ := hex
      rw [Option.isNone_eq_false_iff, Option.isSome_iff_ne_none]
      intro hn
      exact absurd hp (List.find?_eq_none.mp hn c hc)
    have hfz : children.find? (fun c => c.zombie && pidMatches pid c) = none := by
      apply List.find?_eq_none.mpr
      intro c hc
      simp only [Bool.and_eq_true, not_and]
      intro hz
      rw [hnz c hc hz]
      simp
    simp only [sys_waitpid_non_blocking, hf, Bool.false_eq_true, if_false, hfz]
  · intro c hc
    have hcm : pidMatches pid c = true := by
      have := List.find?_some hc
      simp only [Bool.and_eq_true] at this
      exact this.2
    have hcmem := List.mem_of_find?_eq_some hc
    have hf : (children.find? (pidMatches pid)).isNone = false := by
      rw [Option.isNone_eq_false_iff, Option.isSome_iff_ne_none]
      intro hn
      exact absurd hcm (List.find?_eq_none.mp hn c hcmem)
    by_cases hw : virtual_addr_writable mem root ptr = true
    · have hts : ∃ e, PT.find_pte mem root (ptr / PT.PAGE_SIZE) = some e := by
        unfold virtual_addr_writable PT.translate at hw
        cases hfp : PT.find_pte mem root (ptr / PT.PAGE_SIZE) with
        | none => rw [hfp] at hw; exact absurd hw (by simp)
        | some e => exact ⟨e, rfl⟩
      obtain ⟨e, he⟩ := hts
      refine ⟨?_, ?_, ?_⟩
      · simp only [sys_waitpid_non_blocking, hf, Bool.false_eq_true, if_false, hc,
          if_pos hw]
      · intro _
        constructor
        · simp only [sys_waitpid_non_blocking, hf, Bool.false_eq_true, if_false, hc,
            if_pos hw]
        · refine ⟨PT.ptePpn e * PT.PAGE_SIZE + ptr % PT.PAGE_SIZE, ?_, ?_⟩
          · unfold translate_va
            rw [he]
            rfl
          · simp only [sys_waitpid_non_blocking, hf, Bool.false_eq_true, if_false, hc,
              if_pos hw]
            unfold translate_va
            rw [he]
            rfl
      · intro hnw
        rw [hw] at hnw
        exact absurd hnw (by simp)
    · have hwf : virtual_addr_writable mem root ptr = false := by
        cases hx : virtual_addr_writable mem root ptr
        · rfl
        · exact absurd hx hw
      refine ⟨?_, ?_, ?_⟩
      · simp only [sys_waitpid_non_blocking, hf, Bool.false_eq_true, if_false, hc,
          hwf, if_false]
      · intro hx
        exact absurd hx hw
      · intro _
        constructor
        · simp only [sys_waitpid_non_blocking, hf, Bool.false_eq_true, if_false, hc,
            hwf, if_false]
        · simp only [sys_waitpid_non_blocking, hf, Bool.false_eq_true, if_false, hc,
            hwf, if_false]

/-- A three-level page table mapping virtual page 0 to frame 5 with V|R|W. -/
def memW : Nat → Nat → Nat := fun p i =>
  if p = 0 ∧ i = 0 then PT.pteNew 1 1
  else if p = 1 ∧ i = 0 then PT.pteNew 2 1
  else if p = 2 ∧ i = 0 then PT.pteNew 5 7
  else 0

def childW : ChildPCB := ⟨3, true, 42⟩

theorem sys_waitpid_spec_witness :
    (sys_waitpid_non_blocking memW 0 [childW] (-1) 0).children = [] ∧
    (sys_waitpid_non_blocking memW 0 [childW] (-1) 0).ret = 3 ∧
    (sys_waitpid_non_blocking memW 0 [childW] (-1) 0).written = some (20480, 42) :=
  have hs := (sys_waitpid_spec memW 0 [childW] (-1) 0).2.2 childW (by decide)
  have hw : virtual_addr_writable memW 0 0 = true := by decide
  have h2 := (hs.2.1 hw).1
  ⟨hs.1, h2, by decide⟩

end Waitpid

namespace SysRead

/-- The loop of translated_byte_buffer (os/src/mm/page_table.rs lines
181-204), from start to endA: translate the page of start (the unwrap on a
failed walk is a kernel panic, none), compute the end of the current page
capped at endA, and push the slice of the frame's byte array between the two
page offsets; a Rust slice whose start offset exceeds its end offset panics
(none) — which happens here whenever the range continues past a page
boundary from an unaligned start, because the source lacks the upstream
special case for end_va.page_offset() == 0.  Slices are (frame number,
start offset, end offset). -/
def tbbLoop (mem : Nat → Nat → Nat) (root start endA : Nat) :
    Option (List (Nat × Nat × Nat)) :=
  if h : start < endA then
    match PT.translate mem root (start / PT.PAGE_SIZE) with
    | none => none
    | some e =>
        let endVa := min ((start / PT.PAGE_SIZE + 1) * PT.PAGE_SIZE) endA
        if start % PT.PAGE_SIZE ≤ endVa % PT.PAGE_SIZE then
          (tbbLoop mem root endVa endA).map
            (fun v => (PT.ptePpn e, start % PT.PAGE_SIZE, endVa % PT.PAGE_SIZE) :: v)
        else none
  else some []
termination_by endA - start
decreasing_by
  simp only [PT.PAGE_SIZE]
  omega

/-- translated_byte_buffer(token, ptr, len). -/
def translated_byte_buffer (mem : Nat → Nat → Nat) (root ptr len : Nat) :
    Option (List (Nat × Nat × Nat)) :=
  tbbLoop mem root ptr (ptr + len)

/-- The readable/writable flags of an open file, all sys_read consults
before dispatching File::read. -/
structure RFile where
  readable : Bool
  writable : Bool
deriving DecidableEq

/-- sys_read (os/src/syscall/fs.rs lines 80-101): reject a bad or free fd
and a non-readable file with -1; then hand the translated buffer slices to
the file's read method (passed in as fileRead, the dynamically dispatched
File::read) — with no validation of the buffer range: a failed translation
panics (Except.error) instead of returning -1, and page permissions are
never consulted. -/
def sys_read (mem : Nat → Nat → Nat) (root : Nat) (fdTable : List (Option RFile))
    (fd : Nat) (buf len : Nat) (fileRead : List (Nat × Nat × Nat) → Nat) :
    Except Unit Int :=
  if fdTable.length ≤ fd then .ok (-1)
  else
    match fdTable.getD fd none with
    | none => .ok (-1)
    | some f =>
        if !f.readable then .ok (-1)
        else
          match translated_byte_buffer mem root buf len with
          | none => .error ()
          | some slices => .ok ((fileRead slices : Nat) : Int)

def memZ : Nat → Nat → Nat := fun _ _ => 0

/-- Claim C2, counterexample: with every page unmapped (an all-zero root
frame), sys_read on a valid readable descriptor with a 10-byte buffer at
address 5000 panics inside translated_byte_buffer (the unwrap on the failed
walk) instead of returning -1 as the claim demands. -/
theorem sys_read_unmapped_counterexample :
    PT.translate memZ 0 (5000 / PT.PAGE_SIZE) = none ∧
    sys_read memZ 0 [some ⟨true, false⟩] 0 5000 10 (fun _ => 0) =
      Except.error () ∧
    (Except.error () : Except Unit Int) ≠ Except.ok (-1) := by
  refine ⟨rfl, ?_, by simp⟩
  have ht : translated_byte_buffer memZ 0 5000 10 = none := by
    unfold translated_byte_buffer tbbLoop
    rw [dif_pos (by omega)]
    rfl
  unfold sys_read
  rw [if_neg (by simp)]
  dsimp only
  rw [ht]
  rfl

/-- Claim C2 (amended): sys_read validates only the descriptor, never the
buffer range: when the first page of a non-empty buffer has no reachable
leaf entry (find_pte fails), the call panics in translated_byte_buffer
(modelled Except.error) rather than returning -1; permission flags of
mapped pages are not consulted at all, and sys_write — unlike sys_read —
does pre-check, but only the two endpoints of its range. -/
theorem sys_read_unmapped_panics (mem : Nat → Nat → Nat) (root : Nat)
    (fdTable : List (Option RFile)) (fd : Nat) (buf len : Nat)
    (fileRead : List (Nat × Nat × Nat) → Nat) (f : RFile)
    (h1 : fd < fdTable.length) (h2 : fdTable.getD fd none = some f)
    (h3 : f.readable = true) (h4 : PT.translate mem root (buf / PT.PAGE_SIZE) = none)
    (h5 : 0 < len) :
    sys_read mem root fdTable fd buf len fileRead = Except.error () := by
  have ht : translated_byte_buffer mem root buf len = none := by
    unfold translated_byte_buffer tbbLoop
    rw [dif_pos (by omega), h4]
  unfold sys_read
  rw [if_neg (by omega), h2]
  dsimp only
  rw [if_neg (by rw [h3]; simp), ht]

theorem sys_read_unmapped_panics_witness :
    sys_read memZ 0 [none, some ⟨true, true⟩] 1 5000 10 (fun _ => 0) =
      Except.error () :=
  sys_read_unmapped_panics memZ 0 [none, some ⟨true, true⟩] 1 5000 10
    (fun _ => 0) ⟨true, true⟩ (by decide) (by decide) rfl rfl (by decide)

end SysRead
